import Mathlib

/-!
Verification of the `ascii_renderer` line clipping and rasterization core.

The Rust source stores screen coordinates as `f32`.  In this development the
`f32` values that reach the clipping routine are modelled by exact rationals
(`ℚ`): all the arithmetic performed there (subtraction, division by a nonzero
number, rounding) is exact on the inputs of interest.  The rasterizer, in
contrast, can genuinely produce the IEEE special values `NaN` and `±∞`
(a slope `0/0` or `k/0`), and the Rust `as usize` cast of those values is
observable; they are modelled by the small inductive type `F` below, a
rational extended with `nan`, `inf` and `ninf`, with the IEEE propagation
rules for the operations the code performs.
-/

namespace AsciiRenderer

/-- Screen-space 2D vector (`Vector2` in the source), with `f32` components
modelled as exact rationals. -/
structure Vector2 where
  x : ℚ
  y : ℚ
deriving DecidableEq, Repr

/-- 3D vector (`Vector3` in the source). -/
structure Vector3 where
  x : ℚ
  y : ℚ
  z : ℚ
deriving DecidableEq, Repr

/-- The struct fed to a CharBuffer for drawing lines (`Line` in
`src/line.rs`). -/
structure Line where
  char : Char
  points : Vector2 × Vector2
deriving DecidableEq, Repr

/-- Rust `f32::round`: round half away from zero, as an integer result. -/
def roundAway (q : ℚ) : ℤ :=
  if 0 ≤ q then ⌊q + 1/2⌋ else -⌊-q + 1/2⌋

/-- The helper `f32_to_usize` of the `Into` impl in `src/line.rs`:
`value.round() as usize`.  The Rust float-to-integer cast saturates, so a
negative rounded value becomes `0`. -/
def f32_to_usize (value : ℚ) : ℕ :=
  (roundAway value).toNat

/-- The clip step: `impl Into<((usize, usize), (usize, usize))> for Line` in
`src/line.rs` (lines 11–92), transcribed branch for branch. -/
def lineInto (l : Line) : (ℕ × ℕ) × (ℕ × ℕ) :=
  let p0 := l.points.1
  let p1 := l.points.2
  if (p0.x < 0 ∧ p1.x < 0) ∨ (p0.y < 0 ∧ p1.y < 0) then
    ((4000000000, 4000000000), (4000000000, 4000000000))
  else if p0.x = p1.x ∨ p0.y = p1.y then
    ((f32_to_usize p0.x, f32_to_usize p0.y), (f32_to_usize p1.x, f32_to_usize p1.y))
  else
    let first := if p0.x < p1.x then p0 else p1
    let second := if p0.x < p1.x then p1 else p0
    let slope := (second.y - first.y) / (second.x - first.x)
    let equation_for_y := fun x : ℚ => slope * (x - first.x) + first.y
    let equation_for_x := fun y : ℚ => (y - first.y) / slope + first.x
    if first.x < 0 then
      if equation_for_y 0 < 0 then
        ((f32_to_usize (equation_for_x 0), 0), (f32_to_usize second.x, f32_to_usize second.y))
      else
        ((f32_to_usize 0, f32_to_usize (equation_for_y 0)),
          (f32_to_usize second.x, f32_to_usize second.y))
    else if first.y < 0 then
      if equation_for_x 0 < 0 then
        ((0, f32_to_usize (equation_for_y 0)), (f32_to_usize second.x, f32_to_usize second.y))
      else
        ((f32_to_usize (equation_for_x 0), f32_to_usize 0),
          (f32_to_usize second.x, f32_to_usize second.y))
    else if second.y < 0 then
      ((f32_to_usize first.x, f32_to_usize first.y), (f32_to_usize (equation_for_x 0), 0))
    else
      ((f32_to_usize p0.x, f32_to_usize p0.y), (f32_to_usize p1.x, f32_to_usize p1.y))

/-! ### The `f32` values reachable in the rasterizer

The rasterizer divides integer differences, so the only special values it can
produce are `NaN` (`0/0`) and `±∞` (`k/0`). -/

/-- An `f32` value as the rasterizer can produce it: a finite exact rational,
or one of the special values `NaN`, `+∞`, `-∞`. -/
inductive F where
  | nan : F
  | inf : F
  | ninf : F
  | fin : ℚ → F
deriving DecidableEq, Repr

/-- IEEE division of two finite values: `0/0` is `NaN`, `±k/0` is `±∞`. -/
def fdiv (a b : ℚ) : F :=
  if b = 0 then
    if 0 < a then .inf else if a < 0 then .ninf else .nan
  else
    .fin (a / b)

/-- IEEE multiplication of a value by a finite value: `NaN` propagates and
`±∞ * 0` is `NaN`. -/
def fmul (f : F) (q : ℚ) : F :=
  match f with
  | .nan => .nan
  | .inf => if 0 < q then .inf else if q < 0 then .ninf else .nan
  | .ninf => if 0 < q then .ninf else if q < 0 then .inf else .nan
  | .fin a => .fin (a * q)

/-- IEEE addition of a value and a finite value. -/
def fadd (f : F) (q : ℚ) : F :=
  match f with
  | .nan => .nan
  | .inf => .inf
  | .ninf => .ninf
  | .fin a => .fin (a + q)

/-- IEEE `<` against a finite value: false whenever the left side is `NaN`. -/
def flt (f : F) (q : ℚ) : Bool :=
  match f with
  | .nan => false
  | .inf => false
  | .ninf => true
  | .fin a => decide (a < q)

/-- IEEE `>` against a finite value: false whenever the left side is `NaN`. -/
def fgt (f : F) (q : ℚ) : Bool :=
  match f with
  | .nan => false
  | .inf => true
  | .ninf => false
  | .fin a => decide (q < a)

/-- Rust `as usize` on an `f32`: saturating; `NaN` casts to `0`, `-∞` and all
negative values to `0`, `+∞` to `usize::MAX`, finite values truncate toward
zero. -/
def fToUsize (f : F) : ℕ :=
  match f with
  | .nan => 0
  | .inf => 18446744073709551615
  | .ninf => 0
  | .fin q => (⌊q⌋).toNat

/-- Rust inclusive range `a..=b` as a list (empty when `b < a`). -/
def rangeIncl (a b : ℕ) : List ℕ :=
  if a ≤ b then List.range' a (b - a + 1) else []

/-- The cell writes attempted by `draw_vertical` in `src/line.rs`
(lines 154–177): one `set_char` per row; the `is_up` flag picks which
endpoint anchors the inverse-slope equation and which way the loop runs.
Rust binds `inv_slope` once; here the same `fdiv` expression is written in
place. -/
def drawVerticalWrites (s e : ℕ × ℕ) (is_up : Bool) : List (ℕ × ℕ) :=
  if is_up then
    (rangeIncl s.2 e.2).map fun y =>
      (fToUsize (fadd (fmul (fdiv ((e.1 : ℚ) - (s.1 : ℚ)) ((e.2 : ℚ) - (s.2 : ℚ)))
        ((y - s.2 : ℕ) : ℚ)) (s.1 : ℚ)), y)
  else
    (rangeIncl e.2 s.2).map fun y =>
      (fToUsize (fadd (fmul (fdiv ((e.1 : ℚ) - (s.1 : ℚ)) ((e.2 : ℚ) - (s.2 : ℚ)))
        ((y - e.2 : ℕ) : ℚ)) (e.1 : ℚ)), y)

/-- The cell writes attempted by `draw_horizontal` in `src/line.rs`
(lines 179–194): one `set_char` per column, `y` computed from the slope. -/
def drawHorizontalWrites (s e : ℕ × ℕ) : List (ℕ × ℕ) :=
  (rangeIncl s.1 e.1).map fun x =>
    (x, fToUsize (fadd (fmul (fdiv ((e.2 : ℚ) - (s.2 : ℚ)) ((e.1 : ℚ) - (s.1 : ℚ)))
      ((x - s.1 : ℕ) : ℚ)) (s.2 : ℚ)))

/-- The slope classification and dispatch of `draw_line` in `src/line.rs`
(lines 139–152), on already-normalized coordinates.  Rust binds `slope`
once; here the same `fdiv` expression is written in place. -/
def drawLineCore (s e : ℕ × ℕ) : List (ℕ × ℕ) :=
  if flt (fdiv ((e.2 : ℚ) - (s.2 : ℚ)) ((e.1 : ℚ) - (s.1 : ℚ))) (-1) then
    drawVerticalWrites s e false
  else if fgt (fdiv ((e.2 : ℚ) - (s.2 : ℚ)) ((e.1 : ℚ) - (s.1 : ℚ))) 1 then
    drawVerticalWrites s e true
  else
    drawHorizontalWrites s e

/-- The cell writes attempted by the free function `draw_line` in
`src/line.rs` (lines 124–152): swap so the start has the smaller x, then
classify and dispatch.  The writes are independent of the buffer contents,
so the function is modelled as the list of attempted `(x, y)` writes in
order. -/
def drawLineWrites (start_coords end_coords : ℕ × ℕ) : List (ℕ × ℕ) :=
  if start_coords.1 > end_coords.1 then
    drawLineCore end_coords start_coords
  else
    drawLineCore start_coords end_coords

/-! ### The character buffer

The module `char_buffer.rs` is not part of the available sources; only its
callers in `src/line.rs` are.  The buffer is therefore modelled from the
spec. -/

/-- Modelled from the spec: `CharBuffer` (its source module `char_buffer.rs`
is missing) is a fixed `width`×`height` grid of characters addressed by
`(x, y)` with `x` the column; the grid contents are modelled as a total
function read only inside the bounds. -/
structure CharBuffer where
  width : ℕ
  height : ℕ
  cells : ℕ → ℕ → Char

/-- Modelled from the spec: the non-failing mode of `set_char` used by the
rasterizer — a write outside `[0,width) × [0,height)` is a silent no-op. -/
def setCharNoFail (buf : CharBuffer) (x y : ℕ) (c : Char) : CharBuffer :=
  if x < buf.width ∧ y < buf.height then
    { buf with cells := fun a b => if a = x ∧ b = y then c else buf.cells a b }
  else
    buf

/-- Reading one cell of the buffer. -/
def getCell (buf : CharBuffer) (x y : ℕ) : Char :=
  buf.cells x y

/-- Applying a list of attempted writes of one character, in order, through
the bounds-checked cell write. -/
def applyWrites (c : Char) (buf : CharBuffer) : List (ℕ × ℕ) → CharBuffer
  | [] => buf
  | w :: ws => applyWrites c (setCharNoFail buf w.1 w.2 c) ws

/-- `CharBuffer::draw_line` in `src/line.rs` (lines 95–99): clip the line,
then rasterize it into the buffer. -/
def drawLine (buf : CharBuffer) (l : Line) : CharBuffer :=
  let coords := lineInto l
  applyWrites l.char buf (drawLineWrites coords.1 coords.2)

/-- `CharBuffer::draw_lines` in `src/line.rs` (lines 100–121): draw each
line in order, the first element first. -/
def drawLines (buf : CharBuffer) (lines : List Line) : CharBuffer :=
  lines.foldl drawLine buf

/-- The cell writes a `Line` attempts: the rasterizer's write list after
clipping. -/
def lineWrites (l : Line) : List (ℕ × ℕ) :=
  drawLineWrites (lineInto l).1 (lineInto l).2

/-! ### Meshes and the sample cube

The module `rendering.rs` is likewise not under the available sources;
`Mesh` and its two builder operations are modelled from the spec, and
`create_cube` itself is transcribed from `src/lib.rs`. -/

/-- Modelled from the spec: `Mesh` (its source module `rendering.rs` is
missing) holds a sparse mapping from non-negative integer indices to vertex
positions, an ordered edge list of index pairs, and per-mesh rotation and
scale; created empty with scale `(1,1,1)`. -/
structure Mesh where
  vertices : List (ℕ × Vector3)
  edges : List (ℕ × ℕ)
  rotation : Vector3
  scale : Vector3

/-- Modelled from the spec: the default (empty) mesh. -/
def Mesh.default : Mesh :=
  { vertices := [], edges := [], rotation := ⟨0, 0, 0⟩, scale := ⟨1, 1, 1⟩ }

/-- Modelled from the spec: `insert_vertex` maps an index to a position;
re-inserting an existing index overwrites the position. -/
def Mesh.insert_vertex (m : Mesh) (idx : ℕ) (v : Vector3) : Mesh :=
  { m with vertices := (m.vertices.filter fun p => p.1 ≠ idx) ++ [(idx, v)] }

/-- Modelled from the spec: `add_edge` appends an index pair to the edge
list. -/
def Mesh.add_edge (m : Mesh) (e : ℕ × ℕ) : Mesh :=
  { m with edges := m.edges ++ [e] }

/-- `create_cube` in `src/lib.rs` (lines 235–268): a 2×2×2 cube built by
the same insert/add sequence as the source. -/
def create_cube : Mesh :=
  let cube := Mesh.default
  let cube := cube.insert_vertex 0 ⟨1, 1, 1⟩
  let cube := cube.insert_vertex 1 ⟨-1, 1, 1⟩
  let cube := cube.insert_vertex 2 ⟨-1, -1, 1⟩
  let cube := cube.insert_vertex 3 ⟨1, -1, 1⟩
  let cube := cube.add_edge (0, 1)
  let cube := cube.add_edge (1, 2)
  let cube := cube.add_edge (2, 3)
  let cube := cube.add_edge (3, 0)
  let cube := cube.insert_vertex 4 ⟨1, 1, -1⟩
  let cube := cube.insert_vertex 5 ⟨-1, 1, -1⟩
  let cube := cube.insert_vertex 6 ⟨-1, -1, -1⟩
  let cube := cube.insert_vertex 7 ⟨1, -1, -1⟩
  let cube := cube.add_edge (4, 5)
  let cube := cube.add_edge (5, 6)
  let cube := cube.add_edge (6, 7)
  let cube := cube.add_edge (7, 4)
  let cube := cube.add_edge (0, 4)
  let cube := cube.add_edge (1, 5)
  let cube := cube.add_edge (2, 6)
  let cube := cube.add_edge (3, 7)
  cube

/-! ### Spec-side descriptions, for the refinement claims

These two definitions transcribe the specification's description of the
general clipping case and of the rasterizer, to be compared with the
definitions transcribed from the source. -/

/-- The spec's description of the general (non-rejected, non-axis-aligned)
clipping case: `first` is the endpoint with smaller x, `second` the other,
`slope = (second.y - first.y) / (second.x - first.x)`; if `first.x < 0`,
`first` becomes the y-axis intercept `(0, y(0))`, falling back to the x-axis
crossing `(x(0), 0)` when `y(0)` is negative; otherwise if `first.y < 0`,
`first` becomes `(x(0), 0)`, falling back to the y-axis crossing when `x(0)`
is negative; otherwise if `second.y < 0`, `second` becomes `(x(0), 0)`;
every resulting coordinate is rounded to the nearest integer (as an unsigned
grid coordinate).  The remaining pass-through case is not described by the
claim and follows the code. -/
def clipGeneralSpec (l : Line) : (ℕ × ℕ) × (ℕ × ℕ) :=
  let p0 := l.points.1
  let p1 := l.points.2
  let first := if p0.x < p1.x then p0 else p1
  let second := if p0.x < p1.x then p1 else p0
  let slope := (second.y - first.y) / (second.x - first.x)
  let yAt := fun x : ℚ => slope * (x - first.x) + first.y
  let xAt := fun y : ℚ => (y - first.y) / slope + first.x
  let pair :=
    if first.x < 0 then
      if yAt 0 < 0 then ((xAt 0, (0 : ℚ)), (second.x, second.y))
      else (((0 : ℚ), yAt 0), (second.x, second.y))
    else if first.y < 0 then
      if xAt 0 < 0 then (((0 : ℚ), yAt 0), (second.x, second.y))
      else ((xAt 0, (0 : ℚ)), (second.x, second.y))
    else if second.y < 0 then
      ((first.x, first.y), (xAt 0, (0 : ℚ)))
    else
      ((p0.x, p0.y), (p1.x, p1.y))
  ((f32_to_usize pair.1.1, f32_to_usize pair.1.2),
    (f32_to_usize pair.2.1, f32_to_usize pair.2.2))

/-- The spec's description of the rasterizer: normalize so the start point
has the smaller x; classify by `slope = Δy/Δx`; when `slope < -1` or
`slope > 1` the line is vertical-dominant and produces one write per row for
every y in the segment's y-range, x computed from the inverse slope with the
`is_up` flag choosing whether the equation is anchored at the start or end
point; otherwise it is horizontal-dominant and produces one write per column
for every x in `[start.x, end.x]`, y computed from the slope.  The
description is split over the next four definitions, `drawLineSpecWrites`
being the entry point. -/
def drawVerticalSpecWrites (s e : ℕ × ℕ) (is_up : Bool) : List (ℕ × ℕ) :=
  (rangeIncl (min s.2 e.2) (max s.2 e.2)).map fun y : ℕ =>
    (fToUsize (fadd (fmul (fdiv ((e.1 : ℚ) - (s.1 : ℚ)) ((e.2 : ℚ) - (s.2 : ℚ)))
      ((y : ℚ) - (((if is_up then s else e).2 : ℕ) : ℚ))) (((if is_up then s else e).1 : ℕ) : ℚ)),
      y)

/-- Horizontal-dominant spec case: one write per column for every x in
`[start.x, end.x]`, y computed from the slope. -/
def drawHorizontalSpecWrites (s e : ℕ × ℕ) : List (ℕ × ℕ) :=
  (rangeIncl s.1 e.1).map fun x : ℕ =>
    (x, fToUsize (fadd (fmul (fdiv ((e.2 : ℚ) - (s.2 : ℚ)) ((e.1 : ℚ) - (s.1 : ℚ)))
      ((x : ℚ) - (s.1 : ℚ))) (s.2 : ℚ)))

/-- Spec classification on normalized points: vertical-dominant when
`slope < -1` or `slope > 1`, with `is_up` exactly when `slope > 1`. -/
def drawLineSpecCore (s e : ℕ × ℕ) : List (ℕ × ℕ) :=
  if flt (fdiv ((e.2 : ℚ) - (s.2 : ℚ)) ((e.1 : ℚ) - (s.1 : ℚ))) (-1) ∨
      fgt (fdiv ((e.2 : ℚ) - (s.2 : ℚ)) ((e.1 : ℚ) - (s.1 : ℚ))) 1 then
    drawVerticalSpecWrites s e (fgt (fdiv ((e.2 : ℚ) - (s.2 : ℚ)) ((e.1 : ℚ) - (s.1 : ℚ))) 1)
  else
    drawHorizontalSpecWrites s e

/-- Spec entry point: normalize so the start point has the smaller x, then
classify. -/
def drawLineSpecWrites (p q : ℕ × ℕ) : List (ℕ × ℕ) :=
  if q.1 < p.1 then
    drawLineSpecCore q p
  else
    drawLineSpecCore p q

/-! ## Helper lemmas -/

theorem mem_rangeIncl {y a b : ℕ} (h : y ∈ rangeIncl a b) : a ≤ y ∧ y ≤ b := by
  unfold rangeIncl at h
  split at h
  · rw [List.mem_range'_1] at h
    omega
  · simp at h

theorem fdiv_zero_num {b : ℚ} (hb : b ≠ 0) : fdiv 0 b = .fin 0 := by
  unfold fdiv
  rw [if_neg hb, zero_div]

theorem fdiv_pos_den_zero {a : ℚ} (ha : 0 < a) : fdiv a 0 = .inf := by
  unfold fdiv
  rw [if_pos rfl, if_pos ha]

theorem fdiv_neg_den_zero {a : ℚ} (ha : a < 0) : fdiv a 0 = .ninf := by
  unfold fdiv
  rw [if_pos rfl, if_neg (by linarith), if_pos ha]

theorem fgt_false_of_flt {f : F} (h : flt f (-1) = true) : fgt f 1 = false := by
  cases f with
  | nan => rfl
  | inf => simp [flt] at h
  | ninf => rfl
  | fin a =>
    simp only [flt, decide_eq_true_eq] at h
    simp only [fgt, decide_eq_false_iff_not]
    linarith

/-- When the normalized slope is `< -1`, the end point is strictly below the
start point in y (the segment descends). -/
theorem y_lt_of_flt {s e : ℕ × ℕ} (hx : s.1 ≤ e.1)
    (h : flt (fdiv ((e.2 : ℚ) - (s.2 : ℚ)) ((e.1 : ℚ) - (s.1 : ℚ))) (-1) = true) :
    e.2 < s.2 := by
  unfold fdiv at h
  split at h
  · split at h
    · simp [flt] at h
    · split at h
      · rename_i hneg
        have : (e.2 : ℚ) < (s.2 : ℚ) := by linarith
        exact_mod_cast this
      · simp [flt] at h
  · rename_i hb
    simp only [flt, decide_eq_true_eq] at h
    have hbpos : (0 : ℚ) < (e.1 : ℚ) - (s.1 : ℚ) := by
      rcases lt_or_eq_of_le (Nat.cast_le.mpr hx : (s.1 : ℚ) ≤ (e.1 : ℚ)) with h' | h'
      · linarith
      · exact absurd (by linarith : (e.1 : ℚ) - (s.1 : ℚ) = 0) hb
    have := (div_lt_iff₀ hbpos).mp h
    have : (e.2 : ℚ) < (s.2 : ℚ) := by nlinarith
    exact_mod_cast this

/-- When the normalized slope is `> 1`, the end point is strictly above the
start point in y (the segment ascends). -/
theorem y_gt_of_fgt {s e : ℕ × ℕ} (hx : s.1 ≤ e.1)
    (h : fgt (fdiv ((e.2 : ℚ) - (s.2 : ℚ)) ((e.1 : ℚ) - (s.1 : ℚ))) 1 = true) :
    s.2 < e.2 := by
  unfold fdiv at h
  split at h
  · split at h
    · rename_i hpos
      have : (s.2 : ℚ) < (e.2 : ℚ) := by linarith
      exact_mod_cast this
    · split at h
      · simp [fgt] at h
      · simp [fgt] at h
  · rename_i hb
    simp only [fgt, decide_eq_true_eq] at h
    have hbpos : (0 : ℚ) < (e.1 : ℚ) - (s.1 : ℚ) := by
      rcases lt_or_eq_of_le (Nat.cast_le.mpr hx : (s.1 : ℚ) ≤ (e.1 : ℚ)) with h' | h'
      · linarith
      · exact absurd (by linarith : (e.1 : ℚ) - (s.1 : ℚ) = 0) hb
    have := (lt_div_iff₀ hbpos).mp h
    have : (s.2 : ℚ) < (e.2 : ℚ) := by nlinarith
    exact_mod_cast this

/-- On normalized arguments (start x ≤ end x) the rasterizer's classification
and stepping are exactly the spec's description. -/
theorem drawLineCore_eq_spec_of_le {p q : ℕ × ℕ} (hx : p.1 ≤ q.1) :
    drawLineCore p q = drawLineSpecCore p q := by
  unfold drawLineCore drawLineSpecCore
  cases hd : flt (fdiv ((q.2 : ℚ) - (p.2 : ℚ)) ((q.1 : ℚ) - (p.1 : ℚ))) (-1) with
  | true =>
    have hy : q.2 < p.2 := y_lt_of_flt hx hd
    rw [if_pos rfl, if_pos (Or.inl rfl), fgt_false_of_flt hd]
    unfold drawVerticalWrites drawVerticalSpecWrites
    rw [if_neg Bool.false_ne_true, if_neg Bool.false_ne_true,
      min_eq_right (le_of_lt hy), max_eq_left (le_of_lt hy)]
    apply List.map_congr_left
    intro y hmy
    rw [Nat.cast_sub (mem_rangeIncl hmy).1]
  | false =>
    cases hu : fgt (fdiv ((q.2 : ℚ) - (p.2 : ℚ)) ((q.1 : ℚ) - (p.1 : ℚ))) 1 with
    | true =>
      have hy : p.2 < q.2 := y_gt_of_fgt hx hu
      rw [if_neg Bool.false_ne_true, if_pos rfl, if_pos (Or.inr rfl)]
      unfold drawVerticalWrites drawVerticalSpecWrites
      rw [if_pos rfl, if_pos rfl, min_eq_left (le_of_lt hy), max_eq_right (le_of_lt hy)]
      apply List.map_congr_left
      intro y hmy
      rw [Nat.cast_sub (mem_rangeIncl hmy).1]
    | false =>
      rw [if_neg Bool.false_ne_true, if_neg Bool.false_ne_true,
        if_neg (by rintro (h | h) <;> exact Bool.false_ne_true h)]
      unfold drawHorizontalWrites drawHorizontalSpecWrites
      apply List.map_congr_left
      intro x hmx
      rw [Nat.cast_sub (mem_rangeIncl hmx).1]

/-- When the two endpoints share their x coordinate no swap happens, yet the
up-vertical and down-vertical branches produce the same write lists. -/
theorem drawLineCore_comm_of_eq_x {p q : ℕ × ℕ} (h : p.1 = q.1) :
    drawLineCore p q = drawLineCore q p := by
  obtain ⟨px, py⟩ := p
  obtain ⟨qx, qy⟩ := q
  simp only at h
  subst h
  rcases Nat.lt_trichotomy py qy with hy | hy | hy
  · have ha : (0 : ℚ) < (qy : ℚ) - (py : ℚ) := by
      rw [sub_pos]
      exact_mod_cast hy
    have hb : ((py : ℚ) - (qy : ℚ)) < 0 := by linarith
    unfold drawLineCore
    rw [sub_self, fdiv_pos_den_zero ha, fdiv_neg_den_zero hb]
    unfold drawVerticalWrites
    simp only [flt, fgt, Bool.false_eq_true, if_false, if_true, eq_self_iff_true]
    rw [sub_self, fdiv_zero_num (ne_of_gt ha), fdiv_zero_num (ne_of_lt hb)]
  · rw [hy]
  · have ha : (0 : ℚ) < (py : ℚ) - (qy : ℚ) := by
      rw [sub_pos]
      exact_mod_cast hy
    have hb : ((qy : ℚ) - (py : ℚ)) < 0 := by linarith
    unfold drawLineCore
    rw [sub_self, fdiv_pos_den_zero ha, fdiv_neg_den_zero hb]
    unfold drawVerticalWrites
    simp only [flt, fgt, Bool.false_eq_true, if_false, if_true, eq_self_iff_true]
    rw [sub_self, fdiv_zero_num (ne_of_gt ha), fdiv_zero_num (ne_of_lt hb)]

theorem setCharNoFail_width (buf : CharBuffer) (x y : ℕ) (c : Char) :
    (setCharNoFail buf x y c).width = buf.width := by
  unfold setCharNoFail
  split <;> rfl

theorem setCharNoFail_height (buf : CharBuffer) (x y : ℕ) (c : Char) :
    (setCharNoFail buf x y c).height = buf.height := by
  unfold setCharNoFail
  split <;> rfl

theorem getCell_setCharNoFail (buf : CharBuffer) (a b x y : ℕ) (c : Char) :
    getCell (setCharNoFail buf a b c) x y =
      if (x = a ∧ y = b) ∧ a < buf.width ∧ b < buf.height then c
      else getCell buf x y := by
  unfold setCharNoFail getCell
  split
  · rename_i hb
    by_cases hxy : x = a ∧ y = b
    · rw [if_pos ⟨hxy, hb⟩]
      simp [hxy]
    · rw [if_neg (by tauto)]
      simp only
      rw [if_neg hxy]
  · rename_i hb
    rw [if_neg (by tauto)]

theorem applyWrites_width (c : Char) (buf : CharBuffer) (ws : List (ℕ × ℕ)) :
    (applyWrites c buf ws).width = buf.width := by
  induction ws generalizing buf with
  | nil => rfl
  | cons w ws ih => rw [applyWrites, ih, setCharNoFail_width]

theorem applyWrites_height (c : Char) (buf : CharBuffer) (ws : List (ℕ × ℕ)) :
    (applyWrites c buf ws).height = buf.height := by
  induction ws generalizing buf with
  | nil => rfl
  | cons w ws ih => rw [applyWrites, ih, setCharNoFail_height]

theorem getCell_applyWrites (c : Char) (buf : CharBuffer) (ws : List (ℕ × ℕ)) (x y : ℕ) :
    getCell (applyWrites c buf ws) x y =
      if (x, y) ∈ ws ∧ x < buf.width ∧ y < buf.height then c
      else getCell buf x y := by
  induction ws generalizing buf with
  | nil => simp [applyWrites]
  | cons w ws ih =>
    rw [applyWrites, ih, setCharNoFail_width, setCharNoFail_height,
      getCell_setCharNoFail]
    by_cases hm : (x, y) ∈ ws
    · by_cases hb : x < buf.width ∧ y < buf.height
      · rw [if_pos ⟨hm, hb⟩, if_pos ⟨List.mem_cons_of_mem _ hm, hb⟩]
      · rw [if_neg (by tauto),
          if_neg (by intro h; exact hb ⟨h.1.1 ▸ h.2.1, h.1.2 ▸ h.2.2⟩),
          if_neg (by tauto)]
    · rw [if_neg (by tauto)]
      by_cases hw : (x, y) = w
      · have hxy : x = w.1 ∧ y = w.2 := by
          constructor <;> rw [← hw]
        by_cases hb : w.1 < buf.width ∧ w.2 < buf.height
        · rw [if_pos ⟨hxy, hb⟩,
            if_pos ⟨by rw [hw]; exact List.mem_cons_self _ _, by rw [hxy.1, hxy.2]; exact hb⟩]
        · rw [if_neg (by tauto), if_neg (by rw [hxy.1, hxy.2]; tauto)]
      · have hxy : ¬ (x = w.1 ∧ y = w.2) := by
          intro ⟨h1, h2⟩
          exact hw (by rw [h1, h2])
        rw [if_neg (by tauto), if_neg (by simp [List.mem_cons]; tauto)]

theorem drawLine_width (buf : CharBuffer) (l : Line) :
    (drawLine buf l).width = buf.width :=
  applyWrites_width _ _ _

theorem drawLine_height (buf : CharBuffer) (l : Line) :
    (drawLine buf l).height = buf.height :=
  applyWrites_height _ _ _

theorem getCell_drawLine (buf : CharBuffer) (l : Line) (x y : ℕ) :
    getCell (drawLine buf l) x y =
      if (x, y) ∈ lineWrites l ∧ x < buf.width ∧ y < buf.height then l.char
      else getCell buf x y :=
  getCell_applyWrites _ _ _ _ _

theorem getCell_drawLines_of_not_covered (buf : CharBuffer) (ls : List Line) (x y : ℕ)
    (h : ∀ l' ∈ ls, (x, y) ∉ lineWrites l') :
    getCell (drawLines buf ls) x y = getCell buf x y := by
  induction ls generalizing buf with
  | nil => rfl
  | cons l ls ih =>
    have step : getCell (drawLine buf l) x y = getCell buf x y := by
      rw [getCell_drawLine, if_neg]
      intro ⟨hm, _⟩
      exact h l (List.mem_cons_self _ _) hm
    calc getCell (drawLines buf (l :: ls)) x y
        = getCell (drawLines (drawLine buf l) ls) x y := rfl
      _ = getCell (drawLine buf l) x y := ih _ fun l' hl' => h l' (List.mem_cons_of_mem _ hl')
      _ = getCell buf x y := step

theorem drawLines_width (buf : CharBuffer) (ls : List Line) :
    (drawLines buf ls).width = buf.width := by
  induction ls generalizing buf with
  | nil => rfl
  | cons l ls ih =>
    calc (drawLines buf (l :: ls)).width
        = (drawLines (drawLine buf l) ls).width := rfl
      _ = (drawLine buf l).width := ih _
      _ = buf.width := drawLine_width _ _

theorem drawLines_height (buf : CharBuffer) (ls : List Line) :
    (drawLines buf ls).height = buf.height := by
  induction ls generalizing buf with
  | nil => rfl
  | cons l ls ih =>
    calc (drawLines buf (l :: ls)).height
        = (drawLines (drawLine buf l) ls).height := rfl
      _ = (drawLine buf l).height := ih _
      _ = buf.height := drawLine_height _ _

/-! ## Claim theorems -/

/-- C2: for every Line in which both endpoints have negative x, or both have
negative y, the clip step returns the sentinel pair
`((4000000000, 4000000000), (4000000000, 4000000000))`; this trivial-reject
check is the first test performed, so it takes priority over every other
clipping rule. -/
theorem clip_trivial_reject_sentinel (l : Line)
    (h : (l.points.1.x < 0 ∧ l.points.2.x < 0) ∨ (l.points.1.y < 0 ∧ l.points.2.y < 0)) :
    lineInto l = ((4000000000, 4000000000), (4000000000, 4000000000)) := by
  unfold lineInto
  rw [if_pos h]

/-- Witness for C2: the source's own test line `(1,-2)-(1,-3)` has both y
coordinates negative and maps to the sentinel. -/
theorem clip_trivial_reject_sentinel_witness :
    (((1 : ℚ) < 0 ∧ (1 : ℚ) < 0) ∨ ((-2 : ℚ) < 0 ∧ (-3 : ℚ) < 0)) ∧
      lineInto ⟨'x', (⟨1, -2⟩, ⟨1, -3⟩)⟩ =
        ((4000000000, 4000000000), (4000000000, 4000000000)) :=
  ⟨by norm_num, clip_trivial_reject_sentinel ⟨'x', (⟨1, -2⟩, ⟨1, -3⟩)⟩ (by norm_num)⟩

/-- C3 counterexample: on the axis-aligned line `(1,-2)-(1,3)` the nearest
integer to the coordinate `-2` is `-2`, yet the clip step returns `0` for it
(the unsigned conversion saturates inside this very routine), so the rounded
pair is not returned as-is with negatives left to later bounds checks. -/
theorem clip_axis_aligned_counterexample :
    lineInto ⟨'x', (⟨1, -2⟩, ⟨1, 3⟩)⟩ = ((1, 0), (1, 3)) ∧
      roundAway (-2 : ℚ) = -2 ∧
      ((lineInto ⟨'x', (⟨1, -2⟩, ⟨1, 3⟩)⟩).1.2 : ℤ) ≠ roundAway (-2 : ℚ) := by
  have h1 : lineInto ⟨'x', (⟨1, -2⟩, ⟨1, 3⟩)⟩ = ((1, 0), (1, 3)) := by
    norm_num [lineInto, f32_to_usize, roundAway]
    decide
  have h2 : roundAway (-2 : ℚ) = -2 := by norm_num [roundAway]
  exact ⟨h1, h2, by rw [h1, h2]; decide⟩

/-- C3 (amended): for every Line that is not trivially rejected and whose
endpoints have equal x or equal y, the clip step rounds each of the four
coordinates to the nearest integer and converts it to an unsigned grid
coordinate — clamping any negative rounded value to 0 inside this routine —
with no slope computation. -/
theorem clip_axis_aligned (l : Line)
    (hr : ¬ ((l.points.1.x < 0 ∧ l.points.2.x < 0) ∨ (l.points.1.y < 0 ∧ l.points.2.y < 0)))
    (ha : l.points.1.x = l.points.2.x ∨ l.points.1.y = l.points.2.y) :
    lineInto l =
      ((f32_to_usize l.points.1.x, f32_to_usize l.points.1.y),
        (f32_to_usize l.points.2.x, f32_to_usize l.points.2.y)) := by
  unfold lineInto
  rw [if_neg hr, if_pos ha]

/-- Witness for C3 (amended): the line `(1,-2)-(1,3)` is axis-aligned, is
not rejected, and maps to the rounded-and-clamped pair `((1,0),(1,3))`. -/
theorem clip_axis_aligned_witness :
    (¬ (((1 : ℚ) < 0 ∧ (1 : ℚ) < 0) ∨ ((-2 : ℚ) < 0 ∧ (3 : ℚ) < 0)) ∧
        ((1 : ℚ) = 1 ∨ (-2 : ℚ) = 3)) ∧
      lineInto ⟨'x', (⟨1, -2⟩, ⟨1, 3⟩)⟩ = ((1, 0), (1, 3)) := by
  refine ⟨⟨by norm_num, Or.inl rfl⟩, ?_⟩
  have h := clip_axis_aligned ⟨'x', (⟨1, -2⟩, ⟨1, 3⟩)⟩ (by norm_num) (Or.inl rfl)
  rw [h]
  norm_num [f32_to_usize, roundAway]
  decide

/-- C6: the claim that no NaN-derived value reaches the grid is right as a
requirement but the code violates it.  The zero-length segment `(1,2)-(1,2)`
is produced by the clip step itself from the Line `(1,2)-(1,2)`; the
rasterizer computes `slope = 0/0 = NaN`, both vertical tests fail on NaN, the
horizontal branch evaluates `NaN * 0 + 2 = NaN`, and the Rust `as usize` cast
turns it into `0`: the single write lands at `(1, 0)`, not at the segment's
own cell `(1, 2)`. -/
theorem raster_nan_zero_length :
    lineInto ⟨'#', (⟨1, 2⟩, ⟨1, 2⟩)⟩ = ((1, 2), (1, 2)) ∧
      drawLineWrites (1, 2) (1, 2) = [(1, 0)] ∧
      ((1 : ℕ), (0 : ℕ)) ≠ ((1 : ℕ), (2 : ℕ)) := by
  refine ⟨?_, ?_, by decide⟩
  · norm_num [lineInto, f32_to_usize, roundAway]
    decide
  · norm_num [drawLineWrites, drawLineCore, drawVerticalWrites, drawHorizontalWrites,
      fdiv, fmul, fadd, flt, fgt, fToUsize, rangeIncl, List.range']

/-- C7: the clip step maps the Line `(-1,5)-(3,4)` to `((0,5),(3,4))` and
the Line `(1.3,2.5)-(4.3,3.9)` to `((1,3),(4,4))`; the rounding convention
takes `2.5` to `3` (ties away from zero) and `3.9` to `4`. -/
theorem clip_examples :
    lineInto ⟨'x', (⟨-1, 5⟩, ⟨3, 4⟩)⟩ = ((0, 5), (3, 4)) ∧
      lineInto ⟨'x', (⟨13/10, 5/2⟩, ⟨43/10, 39/10⟩)⟩ = ((1, 3), (4, 4)) ∧
      roundAway (5/2 : ℚ) = 3 ∧ roundAway (39/10 : ℚ) = 4 := by
  refine ⟨?_, ?_, by norm_num [roundAway], by norm_num [roundAway]⟩
  · norm_num [lineInto, f32_to_usize, roundAway]
    decide
  · norm_num [lineInto, f32_to_usize, roundAway]
    decide

/-- C9: `create_cube` returns a mesh with exactly 8 vertices at indices 0–7,
whose positions are the eight corners `(±1,±1,±1)` of a 2×2×2 cube centered
at the origin, and exactly 12 edges: the z = +1 square, the z = -1 square,
and the four connecting edges, in that order. -/
theorem create_cube_vertices_edges :
    create_cube.vertices =
        [(0, ⟨1, 1, 1⟩), (1, ⟨-1, 1, 1⟩), (2, ⟨-1, -1, 1⟩), (3, ⟨1, -1, 1⟩),
          (4, ⟨1, 1, -1⟩), (5, ⟨-1, 1, -1⟩), (6, ⟨-1, -1, -1⟩), (7, ⟨1, -1, -1⟩)] ∧
      create_cube.vertices.length = 8 ∧
      create_cube.edges =
        [(0, 1), (1, 2), (2, 3), (3, 0), (4, 5), (5, 6), (6, 7), (7, 4),
          (0, 4), (1, 5), (2, 6), (3, 7)] ∧
      create_cube.edges.length = 12 := by
  refine ⟨?_, ?_, ?_, ?_⟩ <;>
    norm_num [create_cube, Mesh.default, Mesh.insert_vertex, Mesh.add_edge, List.filter]

/-- C4: for every Line whose endpoints both have non-negative x and y, the
clip step passes the endpoints through unchanged except for rounding each
coordinate to the nearest integer (ties away from zero), and therefore
rasterizing the clipped pair writes exactly the same cells as rasterizing
the rounded endpoints directly: clipping is a no-op there. -/
theorem clip_nonneg_passthrough (l : Line)
    (h0x : 0 ≤ l.points.1.x) (h0y : 0 ≤ l.points.1.y)
    (h1x : 0 ≤ l.points.2.x) (h1y : 0 ≤ l.points.2.y) :
    lineInto l =
        ((f32_to_usize l.points.1.x, f32_to_usize l.points.1.y),
          (f32_to_usize l.points.2.x, f32_to_usize l.points.2.y)) ∧
      drawLineWrites (lineInto l).1 (lineInto l).2 =
        drawLineWrites (f32_to_usize l.points.1.x, f32_to_usize l.points.1.y)
          (f32_to_usize l.points.2.x, f32_to_usize l.points.2.y) := by
  have hr : ¬ ((l.points.1.x < 0 ∧ l.points.2.x < 0) ∨
      (l.points.1.y < 0 ∧ l.points.2.y < 0)) := by
    rintro (⟨ha, _⟩ | ⟨ha, _⟩) <;> linarith
  have main : lineInto l =
      ((f32_to_usize l.points.1.x, f32_to_usize l.points.1.y),
        (f32_to_usize l.points.2.x, f32_to_usize l.points.2.y)) := by
    unfold lineInto
    rw [if_neg hr]
    by_cases ha : l.points.1.x = l.points.2.x ∨ l.points.1.y = l.points.2.y
    · rw [if_pos ha]
    · rw [if_neg ha]
      by_cases hc : l.points.1.x < l.points.2.x
      · simp only [if_pos hc]
        rw [if_neg (not_lt.mpr h0x), if_neg (not_lt.mpr h0y), if_neg (not_lt.mpr h1y)]
      · simp only [if_neg hc]
        rw [if_neg (not_lt.mpr h1x), if_neg (not_lt.mpr h1y), if_neg (not_lt.mpr h0y)]
  exact ⟨main, by rw [main]⟩

/-- Witness for C4: the in-quadrant line `(1.3,2.5)-(4.3,3.9)` satisfies the
non-negativity hypotheses and clipping is rounding only. -/
theorem clip_nonneg_passthrough_witness :
    ((0 : ℚ) ≤ 13/10 ∧ (0 : ℚ) ≤ 5/2 ∧ (0 : ℚ) ≤ 43/10 ∧ (0 : ℚ) ≤ 39/10) ∧
      (lineInto ⟨'x', (⟨13/10, 5/2⟩, ⟨43/10, 39/10⟩)⟩ =
          ((f32_to_usize (13/10), f32_to_usize (5/2)),
            (f32_to_usize (43/10), f32_to_usize (39/10))) ∧
        drawLineWrites (lineInto ⟨'x', (⟨13/10, 5/2⟩, ⟨43/10, 39/10⟩)⟩).1
            (lineInto ⟨'x', (⟨13/10, 5/2⟩, ⟨43/10, 39/10⟩)⟩).2 =
          drawLineWrites (f32_to_usize (13/10), f32_to_usize (5/2))
            (f32_to_usize (43/10), f32_to_usize (39/10))) :=
  ⟨by norm_num,
    clip_nonneg_passthrough ⟨'x', (⟨13/10, 5/2⟩, ⟨43/10, 39/10⟩)⟩
      (by norm_num) (by norm_num) (by norm_num) (by norm_num)⟩

/-- C1: for every Line that is neither trivially rejected nor axis-aligned,
the clip step behaves exactly as the spec describes the general case:
`first` is the endpoint with smaller x, `slope = (second.y - first.y) /
(second.x - first.x)`; a negative `first.x` moves `first` to the y-axis
intercept `(0, y(0))` with fallback to the x-axis crossing `(x(0), 0)` when
`y(0) < 0`; otherwise a negative `first.y` moves `first` to `(x(0), 0)` with
fallback to the y-axis crossing when `x(0) < 0`; otherwise a negative
`second.y` replaces `second` with `(x(0), 0)`; every resulting coordinate is
rounded to the nearest integer. -/
theorem clip_general_matches_spec (l : Line)
    (hr : ¬ ((l.points.1.x < 0 ∧ l.points.2.x < 0) ∨ (l.points.1.y < 0 ∧ l.points.2.y < 0)))
    (ha : ¬ (l.points.1.x = l.points.2.x ∨ l.points.1.y = l.points.2.y)) :
    lineInto l = clipGeneralSpec l := by
  unfold lineInto clipGeneralSpec
  rw [if_neg hr, if_neg ha]
  by_cases hc : l.points.1.x < l.points.2.x
  · simp only [if_pos hc]
    split_ifs <;> first | rfl | norm_num [f32_to_usize, roundAway]
  · simp only [if_neg hc]
    split_ifs <;> first | rfl | norm_num [f32_to_usize, roundAway]

/-- Witness for C1: the line `(-1,5)-(3,4)` is neither rejected nor
axis-aligned and its clipping follows the spec's description. -/
theorem clip_general_matches_spec_witness :
    (¬ (((-1 : ℚ) < 0 ∧ (3 : ℚ) < 0) ∨ ((5 : ℚ) < 0 ∧ (4 : ℚ) < 0)) ∧
        ¬ ((-1 : ℚ) = 3 ∨ (5 : ℚ) = 4)) ∧
      lineInto ⟨'x', (⟨-1, 5⟩, ⟨3, 4⟩)⟩ = clipGeneralSpec ⟨'x', (⟨-1, 5⟩, ⟨3, 4⟩)⟩ :=
  ⟨⟨by norm_num, by norm_num⟩,
    clip_general_matches_spec ⟨'x', (⟨-1, 5⟩, ⟨3, 4⟩)⟩ (by norm_num) (by norm_num)⟩

/-- C5: for every pair of grid coordinates, the rasterizer, after
normalizing so the start point has the smaller x, classifies by
`slope = Δy/Δx` and either — for `slope < -1` or `slope > 1` — performs
exactly one cell write per row for every y in the segment's y-range, with x
computed from the inverse slope and the `is_up` flag anchoring the equation
at the start or end point so the iteration increases, or — otherwise —
performs exactly one cell write per column for every x in
`[start.x, end.x]`, with y computed from the slope. -/
theorem raster_axis_dominant_matches_spec (p q : ℕ × ℕ) :
    drawLineWrites p q = drawLineSpecWrites p q := by
  unfold drawLineWrites drawLineSpecWrites
  by_cases h : q.1 < p.1
  · rw [if_pos h, if_pos h]
    exact drawLineCore_eq_spec_of_le (le_of_lt h)
  · rw [if_neg (by omega : ¬ p.1 > q.1), if_neg h]
    exact drawLineCore_eq_spec_of_le (by omega)

/-- C10: the rasterizer's output is independent of endpoint order — the
write list for start `p`, end `q` equals the write list for start `q`,
end `p`, including the equal-x case where no swap happens and the
up-vertical and down-vertical branches coincide; consequently drawing with
either order produces the same buffer for every character and buffer. -/
theorem raster_endpoint_order_irrelevant (p q : ℕ × ℕ) :
    drawLineWrites p q = drawLineWrites q p ∧
      ∀ (c : Char) (buf : CharBuffer),
        applyWrites c buf (drawLineWrites p q) = applyWrites c buf (drawLineWrites q p) := by
  have main : drawLineWrites p q = drawLineWrites q p := by
    unfold drawLineWrites
    rcases Nat.lt_trichotomy p.1 q.1 with h | h | h
    · rw [if_neg (by omega : ¬ p.1 > q.1), if_pos (h : q.1 > p.1)]
    · rw [if_neg (by omega : ¬ p.1 > q.1), if_neg (by omega : ¬ q.1 > p.1)]
      exact drawLineCore_comm_of_eq_x h
    · rw [if_pos h, if_neg (by omega : ¬ q.1 > p.1)]
  exact ⟨main, fun c buf => by rw [main]⟩

/-- C8: `draw_lines` draws each line of the sequence in order — the buffer
it produces is the left fold of `draw_line` — and at a cell covered by a
line `l` and by no later line, the character of `l` (the latest line drawn
on that cell) remains in the final buffer. -/
theorem draw_lines_in_order_latest_wins (buf : CharBuffer) (pre post : List Line)
    (l : Line) (x y : ℕ)
    (hmem : (x, y) ∈ lineWrites l) (hx : x < buf.width) (hy : y < buf.height)
    (hpost : ∀ l' ∈ post, (x, y) ∉ lineWrites l') :
    drawLines buf (pre ++ l :: post) = (pre ++ l :: post).foldl drawLine buf ∧
      getCell (drawLines buf (pre ++ l :: post)) x y = l.char := by
  refine ⟨rfl, ?_⟩
  have hsplit : drawLines buf (pre ++ l :: post) =
      drawLines (drawLine (drawLines buf pre) l) post := by
    unfold drawLines
    rw [List.foldl_append]
    rfl
  have hw : x < (drawLines buf pre).width := by
    rw [drawLines_width]
    exact hx
  have hh : y < (drawLines buf pre).height := by
    rw [drawLines_height]
    exact hy
  rw [hsplit, getCell_drawLines_of_not_covered _ _ _ _ hpost, getCell_drawLine,
    if_pos ⟨hmem, hw, hh⟩]

/-- Witness for C8: on an initially blank 5×5 buffer, drawing a row-1 line,
then the row-1 line `L` with character `+`, then a row-3 line, leaves `+` at
cell `(1,1)`: the latest line covering the cell wins. -/
theorem draw_lines_in_order_latest_wins_witness :
    (((1 : ℕ), (1 : ℕ)) ∈ lineWrites ⟨'+', (⟨0, 1⟩, ⟨2, 1⟩)⟩ ∧
        (1 : ℕ) < 5 ∧ (1 : ℕ) < 5 ∧
        ∀ l' ∈ [Line.mk '=' (⟨0, 3⟩, ⟨2, 3⟩)], ((1 : ℕ), (1 : ℕ)) ∉ lineWrites l') ∧
      (drawLines ⟨5, 5, fun _ _ => ' '⟩
            ([Line.mk '-' (⟨0, 1⟩, ⟨2, 1⟩)] ++
              Line.mk '+' (⟨0, 1⟩, ⟨2, 1⟩) :: [Line.mk '=' (⟨0, 3⟩, ⟨2, 3⟩)]) =
          ([Line.mk '-' (⟨0, 1⟩, ⟨2, 1⟩)] ++
              Line.mk '+' (⟨0, 1⟩, ⟨2, 1⟩) :: [Line.mk '=' (⟨0, 3⟩, ⟨2, 3⟩)]).foldl
            drawLine ⟨5, 5, fun _ _ => ' '⟩ ∧
        getCell (drawLines ⟨5, 5, fun _ _ => ' '⟩
            ([Line.mk '-' (⟨0, 1⟩, ⟨2, 1⟩)] ++
              Line.mk '+' (⟨0, 1⟩, ⟨2, 1⟩) :: [Line.mk '=' (⟨0, 3⟩, ⟨2, 3⟩)])) 1 1 = '+') := by
  constructor
  · refine ⟨?_, by norm_num, by norm_num, ?_⟩
    · norm_num [lineWrites, lineInto, f32_to_usize, roundAway, drawLineWrites, drawLineCore,
        drawVerticalWrites, drawHorizontalWrites, fdiv, fmul, fadd, flt, fgt, fToUsize,
        rangeIncl, List.range']
    · intro l' hl'
      simp only [List.mem_singleton] at hl'
      subst hl'
      norm_num [lineWrites, lineInto, f32_to_usize, roundAway, drawLineWrites, drawLineCore,
        drawVerticalWrites, drawHorizontalWrites, fdiv, fmul, fadd, flt, fgt, fToUsize,
        rangeIncl, List.range']
      decide
  · exact draw_lines_in_order_latest_wins ⟨5, 5, fun _ _ => ' '⟩
      [Line.mk '-' (⟨0, 1⟩, ⟨2, 1⟩)] [Line.mk '=' (⟨0, 3⟩, ⟨2, 3⟩)]
      (Line.mk '+' (⟨0, 1⟩, ⟨2, 1⟩)) 1 1
      (by norm_num [lineWrites, lineInto, f32_to_usize, roundAway, drawLineWrites, drawLineCore,
        drawVerticalWrites, drawHorizontalWrites, fdiv, fmul, fadd, flt, fgt, fToUsize,
        rangeIncl, List.range'])
      (by norm_num) (by norm_num)
      (by
        intro l' hl'
        simp only [List.mem_singleton] at hl'
        subst hl'
        norm_num [lineWrites, lineInto, f32_to_usize, roundAway, drawLineWrites, drawLineCore,
          drawVerticalWrites, drawHorizontalWrites, fdiv, fmul, fadd, flt, fgt, fToUsize,
          rangeIncl, List.range']
        decide)
